import Mathlib

/-!
Shallow embedding of the train/test splitting and model-selection logic of
the repository (TrainTestSplit.py and RankingTrainValidationSplit.py),
with theorems settling the specification claims about them.

Dataframes of interaction records are embedded as lists of `Rating`
records; window-function randomness (orderBy(rand())) is an explicit rank
parameter, and the per-group validity of a rank assignment (row_number
over a partition) is the predicate `ValidRank`.
-/

set_option linter.unusedVariables false
set_option linter.unnecessarySeqFocus false

/-- An interaction record: the canonical schema used by the splitters
after the orchestration renames user/item columns to customerID/itemID.
Timestamps are modelled as naturals (any orderable stamp), ratings as
integers. -/
structure Rating where
  customerID : Nat
  itemID : Nat
  timeStamp : Nat
  rating : Int
deriving DecidableEq, Repr

/-- The grouping key: `split_by_column` of TrainTestSplit.py, i.e. the
customer id when splitting by customer, else the item id. -/
def split_by (by_customer : Bool) (r : Rating) : Nat :=
  if by_customer then r.customerID else r.itemID

/-- The counterpart key: `split_with_column` of TrainTestSplit.py. -/
def split_with (by_customer : Bool) (r : Rating) : Nat :=
  if by_customer then r.itemID else r.customerID

/-- Size of the group of key `k`: the value of the aggregate
`agg(count(split_with_column))` (a raw count of non-null counterpart
values, i.e. the number of records of the group). -/
def groupCount (l : List Rating) (by_customer : Bool) (k : Nat) : Nat :=
  (l.filter (fun r => split_by by_customer r == k)).length

/-- TrainTestSplit.min_rating_filter: group by the chosen entity, count
the counterpart column per group, keep groups whose count is at least
`min_rating`, and join back onto the input (dropping the count column).
Record-level effect: a record survives iff its group has at least
`min_rating` records. -/
def min_rating_filter (l : List Rating) (min_rating : Nat) (by_customer : Bool) :
    List Rating :=
  l.filter (fun r => decide (min_rating ≤ groupCount l by_customer (split_by by_customer r)))

/-- Modelled from the spec for comparison with the source: the number of
DISTINCT counterpart entities interacting with the grouping key `k`
(the spec claims min_rating_filter uses this; the source uses the raw
record count `groupCount`). -/
def spec_distinct_support (l : List Rating) (by_customer : Bool) (k : Nat) : Nat :=
  ((l.filter (fun r => split_by by_customer r == k)).map (split_with by_customer)).dedup.length

/-- Embedding of the guard `if fixed_test_sample == True & sample > min_rating:`
of stratified_split / chronological_split. Python precedence makes `&`
bind tighter than the comparisons, so the line parses as the chained
comparison `fixed_test_sample == (True & sample)  and  (True & sample) > min_rating`,
where `True & sample` is the bitwise AND `1 &&& sample` and the boolean
compares equal to the integers 0/1 by value. -/
def fixed_sample_guard (fixed_test_sample : Bool) (min_rating sample : Nat) : Bool :=
  ((if fixed_test_sample then 1 else 0) == 1 &&& sample) && decide (min_rating < 1 &&& sample)

/-- Spark `bround` / Python `round`: round half to even, to an integer.
Writing `q = floor + frac` with `frac = r / den` where
`r = q.num - floor * q.den`, the comparison `frac` against one half is the
integer comparison of `2 * r` against `den` (the denominator is positive);
stated this way the function evaluates by kernel reduction. -/
def bround (q : Rat) : Int :=
  if 2 * (q.num - Int.floor q * (q.den : Int)) < (q.den : Int) then Int.floor q
  else if (q.den : Int) < 2 * (q.num - Int.floor q * (q.den : Int)) then Int.floor q + 1
  else if Int.floor q % 2 = 0 then Int.floor q else Int.floor q + 1

/-- The product `count * ratio` fed to `bround` by the splitters, built
with `mkRat` so that it evaluates by kernel reduction; `bround_mul_eq`
proves it is the rounding of the ordinary product `(n : Rat) * frac`. -/
def bround_mul (n : Nat) (frac : Rat) : Int :=
  bround (mkRat ((n : Int) * frac.num) frac.den)

/-- TrainTestSplit.stratified_split. The guard returning the sentinel -1
is `Option.none`; the random window order `orderBy(rand())` is the rank
parameter `rnk` (row_number within the group of a record). In ratio mode
the per-record splitPoint is `bround(count * ratio)` of its group count;
train keeps ranks above the cut, test the ranks at or below it. Returns
(train, test). -/
def stratified_split (l : List Rating) (min_rating : Nat) (by_customer : Bool)
    (frac : Rat) (fixed_test_sample : Bool) (sample : Nat) (rnk : Rating → Nat) :
    Option (List Rating × List Rating) :=
  if fixed_sample_guard fixed_test_sample min_rating sample then none
  else
    let rating_joined := min_rating_filter l min_rating by_customer
    if fixed_test_sample = false then
      let splitPoint : Rating → Int := fun r =>
        bround_mul (groupCount rating_joined by_customer (split_by by_customer r)) frac
      some (rating_joined.filter (fun r => decide (splitPoint r < (rnk r : Int))),
            rating_joined.filter (fun r => decide ((rnk r : Int) ≤ splitPoint r)))
    else
      some (rating_joined.filter (fun r => decide (sample < rnk r)),
            rating_joined.filter (fun r => decide (rnk r ≤ sample)))

/-- The three columns selected by the final projection of
chronological_split: grouping id, counterpart id, timestamp. -/
structure RatingKT where
  byID : Nat
  withID : Nat
  timeStamp : Nat
deriving DecidableEq, Repr

/-- The final `select(split_by_column, split_with_column, "timeStamp")`
of chronological_split, applied to one record. -/
def projKT (by_customer : Bool) (r : Rating) : RatingKT :=
  ⟨split_by by_customer r, split_with by_customer r, r.timeStamp⟩

/-- TrainTestSplit.chronological_split. Same shape as stratified_split,
but the window is ordered by timestamp descending: the rank parameter is
constrained (in the theorems) by `TimeRanked` instead of being free, the
group count aggregates count(timeStamp) (again a raw record count), and
both outputs are projected onto (grouping id, counterpart id, timeStamp). -/
def chronological_split (l : List Rating) (min_rating : Nat) (by_customer : Bool)
    (frac : Rat) (fixed_test_sample : Bool) (sample : Nat) (rnk : Rating → Nat) :
    Option (List RatingKT × List RatingKT) :=
  if fixed_sample_guard fixed_test_sample min_rating sample then none
  else
    let rating_joined := min_rating_filter l min_rating by_customer
    if fixed_test_sample = false then
      let splitPoint : Rating → Int := fun r =>
        bround_mul (groupCount rating_joined by_customer (split_by by_customer r)) frac
      some ((rating_joined.filter (fun r => decide (splitPoint r < (rnk r : Int)))).map
              (projKT by_customer),
            (rating_joined.filter (fun r => decide ((rnk r : Int) ≤ splitPoint r))).map
              (projKT by_customer))
    else
      some ((rating_joined.filter (fun r => decide (sample < rnk r))).map (projKT by_customer),
            (rating_joined.filter (fun r => decide (rnk r ≤ sample))).map (projKT by_customer))

/-- TrainTestSplit.non_overlapping_split. rating_exclusive is the list
of distinct grouping entities; `shuffled` is those entities in the random
window order (orderBy(rand())); a record is in rating_split[0] iff its
entity's rowNumber is at most round(count * ratio), i.e. iff its entity is
among the first `cut` entities of the shuffled order. The source joins
rating_split[0] into the TRAIN component and rating_split[1] into TEST. -/
def non_overlapping_split (l : List Rating) (min_rating : Nat) (by_customer : Bool)
    (frac : Rat) (shuffled : List Nat) : List Rating × List Rating :=
  let rating_joined := min_rating_filter l min_rating by_customer
  let rating_exclusive := (rating_joined.map (split_by by_customer)).dedup
  let cut := (bround_mul rating_exclusive.length frac).toNat
  (rating_joined.filter (fun r => decide (split_by by_customer r ∈ shuffled.take cut)),
   rating_joined.filter (fun r => decide (split_by by_customer r ∈ shuffled.drop cut)))

/-- TrainTestSplit.random_split: `randomSplit([1 - ratio, ratio])` after
filtering. The per-record Bernoulli draw is the indicator `g` (true:
the record falls in the second, test, component). -/
def random_split (l : List Rating) (min_rating : Nat) (by_customer : Bool)
    (frac : Rat) (g : Rating → Bool) : List Rating × List Rating :=
  let rating_joined := min_rating_filter l min_rating by_customer
  (rating_joined.filter (fun r => !(g r)), rating_joined.filter g)

/-- Validity of a rank parameter: within every group of the list, the
ranks are exactly 1..groupSize (what row_number over a partition
produces, whatever the ordering). -/
def ValidRank (f : List Rating) (by_customer : Bool) (rnk : Rating → Nat) : Prop :=
  ∀ k ∈ f.map (split_by by_customer),
    ((f.filter (fun r => split_by by_customer r == k)).map rnk).Perm
      (List.range' 1 (f.filter (fun r => split_by by_customer r == k)).length)

/-- A rank parameter consistent with `orderBy(col('timeStamp').desc())`:
within a group, a lower rank means a later-or-equal timestamp. -/
def TimeRanked (f : List Rating) (by_customer : Bool) (rnk : Rating → Nat) : Prop :=
  ∀ a ∈ f, ∀ b ∈ f, split_by by_customer a = split_by by_customer b →
    rnk a < rnk b → b.timeStamp ≤ a.timeStamp

instance (f : List Rating) (bc : Bool) (rnk : Rating → Nat) :
    Decidable (ValidRank f bc rnk) := by
  unfold ValidRank; exact inferInstance

instance (f : List Rating) (bc : Bool) (rnk : Rating → Nat) :
    Decidable (TimeRanked f bc rnk) := by
  unfold TimeRanked; exact inferInstance

/-- Column-level model: the canonical id column names of TrainTestSplit. -/
def split_by_column (by_customer : Bool) : String :=
  if by_customer then "customerID" else "itemID"

/-- Column-level model: the counterpart id column name. -/
def split_with_column (by_customer : Bool) : String :=
  if by_customer then "itemID" else "customerID"

/-- Columns of the dataframes returned by stratified_split: in ratio mode
the join adds "count", withColumn adds "splitPoint" and the select adds
"rank" to all input columns; in fixed-count mode only "rank" is added. -/
def stratified_split_schema (inputCols : List String) (fixed_test_sample : Bool) :
    List String :=
  if fixed_test_sample = false then inputCols ++ ["count", "splitPoint", "rank"]
  else inputCols ++ ["rank"]

/-- Columns of the dataframes returned by chronological_split: the final
`select(split_by_column, split_with_column, "timeStamp")` keeps exactly
those three, whatever the input columns. -/
def chronological_split_schema (inputCols : List String) (by_customer : Bool)
    (fixed_test_sample : Bool) : List String :=
  [split_by_column by_customer, split_with_column by_customer, "timeStamp"]

/-- First-occurrence argmax scan underlying np.argmax: carry the best
(index, value) seen so far, replacing it only on a strictly larger value. -/
def argmaxAux : Nat × Rat → Nat → List Rat → Nat
  | best, _, [] => best.1
  | best, i, x :: xs =>
    if best.2 < x then argmaxAux (i, x) (i + 1) xs else argmaxAux best (i + 1) xs

/-- np.argmax on the metric list (first occurrence of the maximum wins). -/
def np_argmax : List Rat → Nat
  | [] => 0
  | x :: xs => argmaxAux (0, x) 1 xs

/-- First-occurrence argmin scan underlying np.argmin. -/
def argminAux : Nat × Rat → Nat → List Rat → Nat
  | best, _, [] => best.1
  | best, i, x :: xs =>
    if x < best.2 then argminAux (i, x) (i + 1) xs else argminAux best (i + 1) xs

/-- np.argmin on the metric list (first occurrence of the minimum wins). -/
def np_argmin : List Rat → Nat
  | [] => 0
  | x :: xs => argminAux (0, x) 1 xs

/-- The selection step of RankingTrainValidationSplit._fit:
`np.argmax(metrics)` when the evaluator says larger is better, else
`np.argmin(metrics)`. -/
def selectBestIndex (largerBetter : Bool) (metrics : List Rat) : Nat :=
  if largerBetter then np_argmax metrics else np_argmin metrics

/-- The configuration the final model is refit with:
`epm[bestIndex]` of the estimator param maps. -/
def bestConfig {α : Type} (largerBetter : Bool) (metrics : List Rat) (epm : List α) :
    Option α :=
  epm.get? (selectBestIndex largerBetter metrics)

/-- The gather loop of _fit: `metrics = [None] * numModels` followed by
`metrics[j] = metric` for each (j, metric) as it arrives from
`pool.imap_unordered`; `results` is the arrival order. The same fold
models the sub-model slots. -/
def scatterResults {α : Type} (numModels : Nat) (results : List (Nat × α)) :
    List (Option α) :=
  results.foldl (fun acc p => acc.set p.1 (some p.2)) (List.replicate numModels none)

/-- A selected index is a first-occurrence argmax of the list. -/
def IsFirstMax (l : List Rat) (i : Nat) : Prop :=
  i < l.length ∧ (∀ j < l.length, l.getD j 0 ≤ l.getD i 0) ∧
    ∀ j < i, l.getD j 0 < l.getD i 0

/-- A selected index is a first-occurrence argmin of the list. -/
def IsFirstMin (l : List Rat) (i : Nat) : Prop :=
  i < l.length ∧ (∀ j < l.length, l.getD i 0 ≤ l.getD j 0) ∧
    ∀ j < i, l.getD i 0 < l.getD j 0

/-- The pathological parse of the fixed-sample guard makes it false for
every positive minimum support: `1 &&& sample` is at most 1, so the
comparison `(1 &&& sample) > min_rating` already fails. -/
lemma fixed_sample_guard_eq_false (fx : Bool) (m s : Nat) (h : 0 < m) :
    fixed_sample_guard fx m s = false := by
  have h1 : 1 &&& s ≤ 1 := Nat.and_le_left
  unfold fixed_sample_guard
  have h2 : decide (m < 1 &&& s) = false := decide_eq_false (by omega)
  rw [h2, Bool.and_false]

/-- Concrete failing input for the fixed-sample rejection claim: one
customer with six distinct items, ranked by item id. -/
def c1l : List Rating :=
  [⟨1, 1, 6, 0⟩, ⟨1, 2, 5, 0⟩, ⟨1, 3, 4, 0⟩, ⟨1, 4, 3, 0⟩, ⟨1, 5, 2, 0⟩, ⟨1, 6, 1, 0⟩]

/-- C1: the claim says a fixed-count split with sample ≥ min_rating (here
sample = min_rating = 6) must be rejected before any data movement. The
code does not reject it: the guard evaluates to false (Python precedence
turns it into `fixed == (1 & sample) and (1 & sample) > min_rating`), and
both splitters proceed and return a train/test pair instead of the
sentinel, with all six records of the group placed in the test side. -/
theorem claim1_fixed_sample_not_rejected :
    fixed_sample_guard true 6 6 = false ∧
    stratified_split c1l 6 true (mkRat 1 2) true 6 (fun r => r.itemID) =
      some ([], c1l) ∧
    chronological_split c1l 6 true (mkRat 1 2) true 6 (fun r => r.itemID) =
      some ([], c1l.map (projKT true)) := by
  decide

/-- Two records of the same customer for the same single item: the raw
record count is 2 but the distinct counterpart count is 1. -/
def c2l : List Rating := [⟨1, 1, 0, 0⟩, ⟨1, 1, 1, 0⟩]

/-- C2 as stated is false on the code: with minCount = 2, the filter
retains records of customer 1 although that customer interacts with only
one distinct item, because the source aggregates count(itemID) — a raw
record count — not a distinct count. -/
theorem claim2_counterexample :
    ¬ (∀ r ∈ min_rating_filter c2l 2 true,
        2 ≤ spec_distinct_support c2l true (split_by true r)) := by
  decide

/-- C2 amended: min_rating_filter retains exactly the records whose
grouping entity has at least minCount interaction RECORDS (raw count of
counterpart values), and changes nothing else — the output is a sublist
of the input. -/
theorem claim2_amended_raw_count (l : List Rating) (m : Nat) (bc : Bool) :
    (min_rating_filter l m bc).Sublist l ∧
    ∀ r, r ∈ min_rating_filter l m bc ↔
      (r ∈ l ∧ m ≤ (l.filter (fun x => split_by bc x == split_by bc r)).length) := by
  refine ⟨List.filter_sublist l, fun r => ?_⟩
  simp [min_rating_filter, groupCount, List.mem_filter]

/-- Filtering does not change the size of a surviving group: a group
whose raw count meets the threshold keeps every one of its records. -/
lemma groupCount_min_rating_filter (l : List Rating) (m : Nat) (bc : Bool) (k : Nat)
    (hk : m ≤ groupCount l bc k) :
    groupCount (min_rating_filter l m bc) bc k = groupCount l bc k := by
  simp only [groupCount] at hk ⊢
  simp only [min_rating_filter, groupCount]
  rw [List.filter_filter]
  congr 1
  apply List.filter_congr
  intro a ha
  cases hsb : (split_by true a == k) with
  | false =>
      cases hsb2 : (split_by bc a == k) with
      | false => simp [hsb2]
      | true =>
          have hkey : split_by bc a = k := by simpa using hsb2
          simp [hsb2, hkey, hk]
  | true =>
      cases hsb2 : (split_by bc a == k) with
      | false => simp [hsb2]
      | true =>
          have hkey : split_by bc a = k := by simpa using hsb2
          simp [hsb2, hkey, hk]

/-- C9: min_rating_filter is idempotent — refiltering its own output with
the same minCount and grouping choice returns the output unchanged. -/
theorem claim9_filter_idempotent (l : List Rating) (m : Nat) (bc : Bool) :
    min_rating_filter (min_rating_filter l m bc) m bc = min_rating_filter l m bc := by
  apply List.filter_eq_self.mpr
  intro r hr
  have h1 : m ≤ groupCount l bc (split_by bc r) := by
    have h2 := (List.mem_filter.mp hr).2
    simpa using h2
  rw [decide_eq_true_eq, groupCount_min_rating_filter l m bc _ h1]
  exact h1

/-- C10: chronological_split projects both outputs onto exactly the
grouping id, counterpart id and timeStamp columns — a rating column in
the input is absent from them — while stratified_split keeps every input
column (adding count/splitPoint/rank bookkeeping columns). -/
theorem claim10_chronological_schema (inputCols : List String) (bc fx : Bool)
    (hrat : "rating" ∈ inputCols) :
    chronological_split_schema inputCols bc fx =
      [split_by_column bc, split_with_column bc, "timeStamp"] ∧
    "rating" ∉ chronological_split_schema inputCols bc fx ∧
    (∀ c ∈ inputCols, c ∈ stratified_split_schema inputCols fx) ∧
    "rating" ∈ stratified_split_schema inputCols fx := by
  refine ⟨rfl, ?_, ?_, ?_⟩
  · cases bc <;>
      simp [chronological_split_schema, split_by_column, split_with_column]
  · intro c hc
    cases fx <;> simp [stratified_split_schema, hc]
  · cases fx <;> simp [stratified_split_schema, hrat]

/-- Witness for C10 at the canonical four-column input schema. -/
theorem claim10_chronological_schema_witness :
    ("rating" ∈ ["customerID", "itemID", "timeStamp", "rating"]) ∧
    "rating" ∉
      chronological_split_schema ["customerID", "itemID", "timeStamp", "rating"] true false := by
  exact ⟨by decide, (claim10_chronological_schema _ true false (by decide)).2.1⟩

/-- decide of a reversed Int comparison is the boolean negation. -/
lemma not_lt_decide_int (a b : Int) : decide (a ≤ b) = !decide (b < a) := by
  rw [← decide_not]
  exact decide_eq_decide.mpr not_lt.symm

/-- decide of a reversed Nat comparison is the boolean negation. -/
lemma not_lt_decide_nat (a b : Nat) : decide (a ≤ b) = !decide (b < a) := by
  rw [← decide_not]
  exact decide_eq_decide.mpr not_lt.symm

/-- A filter and the filter of the pointwise-negated predicate partition
the list: they are element-disjoint and their concatenation is a
permutation of the list. -/
lemma filter_compl_partition {α : Type} (f : List α) (p q : α → Bool)
    (hpq : ∀ r ∈ f, q r = !(p r)) :
    (∀ r ∈ f.filter p, r ∉ f.filter q) ∧ (f.filter p ++ f.filter q).Perm f := by
  constructor
  · intro r hr hrq
    have h1 := List.mem_filter.mp hr
    have h2 := List.mem_filter.mp hrq
    rw [hpq r h1.1, h1.2] at h2
    simp at h2
  · rw [List.filter_congr hpq]
    exact List.filter_append_perm p f

/-- Both branches of stratified_split produce a complementary pair of
filters of the filtered input. -/
lemma stratified_split_eq_some {l : List Rating} {m : Nat} {bc : Bool} {frac : Rat}
    {fx : Bool} {sample : Nat} {rnk : Rating → Nat} {tr te : List Rating}
    (h : stratified_split l m bc frac fx sample rnk = some (tr, te)) :
    ∃ P : Rating → Bool,
      tr = (min_rating_filter l m bc).filter P ∧
      te = (min_rating_filter l m bc).filter (fun r => !(P r)) := by
  simp only [stratified_split] at h
  split at h
  · exact Option.noConfusion h
  · split at h
    · rw [Option.some.injEq, Prod.mk.injEq] at h
      refine ⟨fun r => decide
        (bround_mul (groupCount (min_rating_filter l m bc) bc (split_by bc r)) frac <
          (rnk r : Int)), h.1.symm, ?_⟩
      rw [← h.2]
      exact List.filter_congr fun a _ => not_lt_decide_int _ _
    · rw [Option.some.injEq, Prod.mk.injEq] at h
      refine ⟨fun r => decide (sample < rnk r), h.1.symm, ?_⟩
      rw [← h.2]
      exact List.filter_congr fun a _ => not_lt_decide_nat _ _

/-- Both branches of chronological_split produce the projection of a
complementary pair of filters of the filtered input. -/
lemma chronological_split_eq_some {l : List Rating} {m : Nat} {bc : Bool} {frac : Rat}
    {fx : Bool} {sample : Nat} {rnk : Rating → Nat} {tr te : List RatingKT}
    (h : chronological_split l m bc frac fx sample rnk = some (tr, te)) :
    ∃ P : Rating → Bool,
      tr = ((min_rating_filter l m bc).filter P).map (projKT bc) ∧
      te = ((min_rating_filter l m bc).filter (fun r => !(P r))).map (projKT bc) := by
  simp only [chronological_split] at h
  split at h
  · exact Option.noConfusion h
  · split at h
    · rw [Option.some.injEq, Prod.mk.injEq] at h
      refine ⟨fun r => decide
        (bround_mul (groupCount (min_rating_filter l m bc) bc (split_by bc r)) frac <
          (rnk r : Int)), h.1.symm, ?_⟩
      rw [← h.2]
      exact congrArg (List.map (projKT bc))
        (List.filter_congr fun a _ => not_lt_decide_int _ _)
    · rw [Option.some.injEq, Prod.mk.injEq] at h
      refine ⟨fun r => decide (sample < rnk r), h.1.symm, ?_⟩
      rw [← h.2]
      exact congrArg (List.map (projKT bc))
        (List.filter_congr fun a _ => not_lt_decide_nat _ _)

/-- Two records of one customer for one item at one timestamp, differing
only in the rating value; ranked by rating. Any rank order is consistent
with the (tied) descending timestamps. -/
def c3cxl : List Rating := [⟨1, 1, 5, 1⟩, ⟨1, 1, 5, 2⟩]

/-- Rank parameter for the C3 counterexample. -/
def c3cxrnk : Rating → Nat := fun r => r.rating.toNat

/-- C3 as stated is false on the code for the chronological splitter:
after the final projection drops the rating column, the two records
collapse to the same (entity, counterpart, timeStamp) row, one lands in
train and one in test, so the returned train and test are NOT disjoint
(and their union is the projection, not the filtered input itself). The
rank used is a legitimate run of the window: per-group ranks are exactly
1..groupSize and respect the (tied) descending timestamps. -/
theorem claim3_counterexample :
    ValidRank (min_rating_filter c3cxl 2 true) true c3cxrnk ∧
    TimeRanked (min_rating_filter c3cxl 2 true) true c3cxrnk ∧
    chronological_split c3cxl 2 true (mkRat 1 2) true 1 c3cxrnk =
      some ([⟨1, 1, 5⟩], [⟨1, 1, 5⟩]) ∧
    (⟨1, 1, 5⟩ : RatingKT) ∈
      ((chronological_split c3cxl 2 true (mkRat 1 2) true 1 c3cxrnk).getD ([], [])).1 ∧
    (⟨1, 1, 5⟩ : RatingKT) ∈
      ((chronological_split c3cxl 2 true (mkRat 1 2) true 1 c3cxrnk).getD ([], [])).2 := by
  decide

/-- C3 amended: Random and Stratified record-level partition the filtered
input (disjoint, union a permutation of it). Chronological partitions the
PROJECTION of the filtered input onto (entity, counterpart, timeStamp):
train ++ test is a permutation of that projection, and train and test are
disjoint whenever the projection is injective on the filtered input (no
two filtered records share entity, counterpart and timestamp).
NonOverlapping guarantees entity-level disjointness: no grouping entity
appears on both sides. -/
theorem claim3_amended :
    (∀ l m bc frac fx sample rnk tr te,
        stratified_split l m bc frac fx sample rnk = some (tr, te) →
        (∀ r ∈ tr, r ∉ te) ∧ (tr ++ te).Perm (min_rating_filter l m bc)) ∧
    (∀ l m bc frac g,
        (∀ r ∈ (random_split l m bc frac g).1, r ∉ (random_split l m bc frac g).2) ∧
        ((random_split l m bc frac g).1 ++ (random_split l m bc frac g).2).Perm
          (min_rating_filter l m bc)) ∧
    (∀ l m bc frac fx sample rnk tr te,
        chronological_split l m bc frac fx sample rnk = some (tr, te) →
        (tr ++ te).Perm ((min_rating_filter l m bc).map (projKT bc)) ∧
        ((∀ a ∈ min_rating_filter l m bc, ∀ b ∈ min_rating_filter l m bc,
            projKT bc a = projKT bc b → a = b) →
          ∀ x ∈ tr, x ∉ te)) ∧
    (∀ l m bc frac shuffled, shuffled.Nodup →
        ∀ e ∈ (non_overlapping_split l m bc frac shuffled).1.map (split_by bc),
          e ∉ (non_overlapping_split l m bc frac shuffled).2.map (split_by bc)) := by
  refine ⟨?_, ?_, ?_, ?_⟩
  · intro l m bc frac fx sample rnk tr te h
    obtain ⟨P, rfl, rfl⟩ := stratified_split_eq_some h
    exact filter_compl_partition _ P _ (fun r _ => rfl)
  · intro l m bc frac g
    exact filter_compl_partition _ (fun r => !(g r)) g (fun r _ => (Bool.not_not _).symm)
  · intro l m bc frac fx sample rnk tr te h
    obtain ⟨P, rfl, rfl⟩ := chronological_split_eq_some h
    constructor
    · rw [← List.map_append]
      exact ((filter_compl_partition _ P _ (fun r _ => rfl)).2).map (projKT bc)
    · intro hinj x hx hx2
      obtain ⟨a, ha, rfl⟩ := List.mem_map.mp hx
      obtain ⟨b, hb, hba⟩ := List.mem_map.mp hx2
      have ha2 := List.mem_filter.mp ha
      have hb2 := List.mem_filter.mp hb
      have hab : b = a := hinj b hb2.1 a ha2.1 hba
      rw [hab, ha2.2] at hb2
      simp at hb2
  · intro l m bc frac shuffled hnd e he he2
    obtain ⟨a, ha, rfl⟩ := List.mem_map.mp he
    obtain ⟨b, hb, hba⟩ := List.mem_map.mp he2
    have ha2 := List.mem_filter.mp ha
    have hb2 := List.mem_filter.mp hb
    have htake := of_decide_eq_true ha2.2
    have hdrop := of_decide_eq_true hb2.2
    rw [hba] at hdrop
    exact List.disjoint_take_drop hnd (Nat.le_refl _) htake hdrop

/-- Small interaction set for the C3 witness: one customer with two items
at distinct timestamps, ranked by item id (item 1 is the most recent). -/
def c3l : List Rating := [⟨1, 1, 2, 0⟩, ⟨1, 2, 1, 0⟩]

/-- Rank parameter for the C3 and C5/C6 witnesses. -/
def c3rnk : Rating → Nat := fun r => r.itemID

/-- Two customers with one item each, for the non-overlapping split. -/
def c4l : List Rating := [⟨1, 10, 0, 0⟩, ⟨2, 20, 0, 0⟩]

/-- Witness for the amended C3 at concrete inputs. -/
theorem claim3_amended_witness :
    (([⟨1, 2, 1, 0⟩] ++ [⟨1, 1, 2, 0⟩] : List Rating)).Perm (min_rating_filter c3l 2 true) ∧
    ((⟨1, 2, 1, 0⟩ : Rating) ∉ ([⟨1, 1, 2, 0⟩] : List Rating)) ∧
    ((random_split c3l 2 true (mkRat 1 2) (fun r => r.itemID == 1)).1 ++
        (random_split c3l 2 true (mkRat 1 2) (fun r => r.itemID == 1)).2).Perm
      (min_rating_filter c3l 2 true) ∧
    (([⟨1, 2, 1⟩] ++ [⟨1, 1, 2⟩] : List RatingKT)).Perm
      ((min_rating_filter c3l 2 true).map (projKT true)) ∧
    ((⟨1, 2, 1⟩ : RatingKT) ∉ ([⟨1, 1, 2⟩] : List RatingKT)) ∧
    ([1, 2] : List Nat).Nodup ∧
    (1 ∉ (non_overlapping_split c4l 1 true (mkRat 1 2) [1, 2]).2.map (split_by true)) := by
  refine ⟨(claim3_amended.1 c3l 2 true (mkRat 1 2) false 1 c3rnk
      [⟨1, 2, 1, 0⟩] [⟨1, 1, 2, 0⟩] (by decide)).2,
    (claim3_amended.1 c3l 2 true (mkRat 1 2) false 1 c3rnk
      [⟨1, 2, 1, 0⟩] [⟨1, 1, 2, 0⟩] (by decide)).1 _ (by decide),
    (claim3_amended.2.1 c3l 2 true (mkRat 1 2) (fun r => r.itemID == 1)).2,
    (claim3_amended.2.2.1 c3l 2 true (mkRat 1 2) false 1 c3rnk
      [⟨1, 2, 1⟩] [⟨1, 1, 2⟩] (by decide)).1,
    (claim3_amended.2.2.1 c3l 2 true (mkRat 1 2) false 1 c3rnk
      [⟨1, 2, 1⟩] [⟨1, 1, 2⟩] (by decide)).2 (by decide) _ (by decide),
    by decide,
    claim3_amended.2.2.2 c4l 1 true (mkRat 1 2) [1, 2] (by decide) 1 (by decide)⟩

/-- C4: the claim (and the docstring "ratio: sampling ratio for testing
set") says the first round(|entities| * ratio) shuffled entities are the
held-out TEST entities. The code joins them into the TRAIN side: with
entities [1, 2] shuffled to [1, 2] and ratio 1/2, cut = round(2 * 0.5) = 1,
and entity 1's records land in train while entity 2's land in test — the
returned test is not the interactions of the first cut entities. -/
theorem claim4_first_entities_go_to_train :
    ([1, 2] : List Nat).Perm ((min_rating_filter c4l 1 true).map (split_by true)).dedup ∧
    bround_mul ((min_rating_filter c4l 1 true).map (split_by true)).dedup.length
      (mkRat 1 2) = 1 ∧
    non_overlapping_split c4l 1 true (mkRat 1 2) [1, 2] =
      ([⟨1, 10, 0, 0⟩], [⟨2, 20, 0, 0⟩]) ∧
    (non_overlapping_split c4l 1 true (mkRat 1 2) [1, 2]).2 ≠
      (min_rating_filter c4l 1 true).filter
        (fun r => decide (split_by true r ∈ ([1, 2] : List Nat).take 1)) := by
  decide

/-- groupCount unfolded. -/
lemma groupCount_def (l : List Rating) (bc : Bool) (k : Nat) :
    groupCount l bc k = (l.filter (fun r => split_by bc r == k)).length := rfl

/-- With fixed_test_sample = False the buggy guard never fires at all:
`1 &&& sample` is 0 or 1, so either the equality with 0 or the strict
comparison against min_rating fails. -/
lemma fixed_sample_guard_false (m s : Nat) : fixed_sample_guard false m s = false := by
  have h1 : 1 &&& s ≤ 1 := Nat.and_le_left
  unfold fixed_sample_guard
  by_cases h : 1 &&& s = 0
  · rw [h]; simp
  · have h2 : 1 &&& s = 1 := by omega
    rw [h2]; simp

/-- Fixed-count branch of stratified_split, with the guard discharged. -/
lemma stratified_split_fixed_eq (l : List Rating) (m : Nat) (bc : Bool) (frac : Rat)
    (sample : Nat) (rnk : Rating → Nat) (hm : 0 < m) :
    stratified_split l m bc frac true sample rnk =
      some ((min_rating_filter l m bc).filter (fun r => decide (sample < rnk r)),
            (min_rating_filter l m bc).filter (fun r => decide (rnk r ≤ sample))) := by
  simp only [stratified_split, fixed_sample_guard_eq_false true m sample hm]
  simp

/-- Ratio branch of stratified_split, with the guard discharged. -/
lemma stratified_split_ratio_eq (l : List Rating) (m : Nat) (bc : Bool) (frac : Rat)
    (sample : Nat) (rnk : Rating → Nat) :
    stratified_split l m bc frac false sample rnk =
      some ((min_rating_filter l m bc).filter (fun r => decide
              (bround_mul (groupCount (min_rating_filter l m bc) bc (split_by bc r)) frac <
                (rnk r : Int))),
            (min_rating_filter l m bc).filter (fun r => decide
              ((rnk r : Int) ≤
                bround_mul (groupCount (min_rating_filter l m bc) bc (split_by bc r)) frac))) := by
  simp only [stratified_split, fixed_sample_guard_false]
  simp

/-- Fixed-count branch of chronological_split, with the guard discharged. -/
lemma chronological_split_fixed_eq (l : List Rating) (m : Nat) (bc : Bool) (frac : Rat)
    (sample : Nat) (rnk : Rating → Nat) (hm : 0 < m) :
    chronological_split l m bc frac true sample rnk =
      some (((min_rating_filter l m bc).filter
               (fun r => decide (sample < rnk r))).map (projKT bc),
            ((min_rating_filter l m bc).filter
               (fun r => decide (rnk r ≤ sample))).map (projKT bc)) := by
  simp only [chronological_split, fixed_sample_guard_eq_false true m sample hm]
  simp

/-- Ratio branch of chronological_split, with the guard discharged. -/
lemma chronological_split_ratio_eq (l : List Rating) (m : Nat) (bc : Bool) (frac : Rat)
    (sample : Nat) (rnk : Rating → Nat) :
    chronological_split l m bc frac false sample rnk =
      some (((min_rating_filter l m bc).filter (fun r => decide
              (bround_mul (groupCount (min_rating_filter l m bc) bc (split_by bc r)) frac <
                (rnk r : Int)))).map (projKT bc),
            ((min_rating_filter l m bc).filter (fun r => decide
              ((rnk r : Int) ≤
                bround_mul (groupCount (min_rating_filter l m bc) bc (split_by bc r))
                  frac))).map (projKT bc)) := by
  simp only [chronological_split, fixed_sample_guard_false]
  simp

/-- Among the ranks 1..n, exactly min q n are at most q. -/
lemma countP_range'_le (q n : Nat) :
    (List.range' 1 n).countP (fun x => decide (x ≤ q)) = min q n := by
  induction n with
  | zero => simp
  | succ n ih =>
    rw [List.range'_1_concat, List.countP_append, ih]
    have hone : (List.countP (fun x => decide (x ≤ q)) [1 + n]) =
        if 1 + n ≤ q then 1 else 0 := by
      simp [List.countP_cons]
    rw [hone, Nat.min_def, Nat.min_def]
    split_ifs <;> omega

/-- Among the ranks 1..n, exactly n - min q n are above q. -/
lemma countP_range'_gt (q n : Nat) :
    (List.range' 1 n).countP (fun x => decide (q < x)) = n - min q n := by
  induction n with
  | zero => simp
  | succ n ih =>
    rw [List.range'_1_concat, List.countP_append, ih]
    have hone : (List.countP (fun x => decide (q < x)) [1 + n]) =
        if q < 1 + n then 1 else 0 := by
      simp [List.countP_cons]
    rw [hone, Nat.min_def, Nat.min_def]
    split_ifs <;> omega

/-- Integer version of `countP_range'_le` for a nonnegative split point. -/
lemma countP_range'_le_int (sp : Int) (n : Nat) (hsp : 0 ≤ sp) :
    (List.range' 1 n).countP (fun x : Nat => decide ((x : Int) ≤ sp)) = min sp.toNat n := by
  have hcong : ∀ x ∈ List.range' 1 n,
      (fun x : Nat => decide ((x : Int) ≤ sp)) x = decide (x ≤ sp.toNat) := by
    intro x hx
    exact decide_eq_decide.mpr (Int.le_toNat hsp).symm
  rw [List.countP_eq_length_filter, List.filter_congr hcong,
    ← List.countP_eq_length_filter]
  exact countP_range'_le sp.toNat n

/-- Integer version of `countP_range'_gt` for a nonnegative split point. -/
lemma countP_range'_gt_int (sp : Int) (n : Nat) (hsp : 0 ≤ sp) :
    (List.range' 1 n).countP (fun x : Nat => decide (sp < (x : Int))) = n - min sp.toNat n := by
  have hcong : ∀ x ∈ List.range' 1 n,
      (fun x : Nat => decide (sp < (x : Int))) x = decide (sp.toNat < x) := by
    intro x hx
    exact decide_eq_decide.mpr (Int.toNat_lt hsp).symm
  rw [List.countP_eq_length_filter, List.filter_congr hcong,
    ← List.countP_eq_length_filter]
  exact countP_range'_gt sp.toNat n

/-- Master counting lemma: when the ranks of the group of `k` are exactly
1..groupSize and the kept-record predicate agrees on this group with a
predicate of the rank alone, the number of kept group members is the
count of qualifying ranks. -/
lemma count_filter_rank (f : List Rating) (bc : Bool) (rnk : Rating → Nat) (k : Nat)
    (P : Rating → Bool) (p : Nat → Bool)
    (hg : ((f.filter (fun r => split_by bc r == k)).map rnk).Perm
          (List.range' 1 (f.filter (fun r => split_by bc r == k)).length))
    (hP : ∀ r ∈ f, split_by bc r = k → P r = p (rnk r)) :
    ((f.filter P).filter (fun r => split_by bc r == k)).length =
      (List.range' 1 (f.filter (fun r => split_by bc r == k)).length).countP p := by
  rw [List.filter_filter]
  have h1 : (f.filter fun a => (split_by bc a == k) && P a) =
      (f.filter fun a => (split_by bc a == k) && p (rnk a)) := by
    apply List.filter_congr
    intro a ha
    cases hk : (split_by bc a == k) with
    | false => simp
    | true =>
      have hkey : split_by bc a = k := by simpa using hk
      simp [hP a ha hkey]
  rw [h1]
  have h2 : (f.filter fun a => (split_by bc a == k) && p (rnk a)) =
      ((f.filter fun r => split_by bc r == k).filter fun a => p (rnk a)) := by
    rw [List.filter_filter]
    apply List.filter_congr
    intro a ha
    exact Bool.and_comm _ _
  rw [h2]
  calc ((f.filter fun r => split_by bc r == k).filter fun a => p (rnk a)).length
      = (f.filter fun r => split_by bc r == k).countP (fun a => p (rnk a)) := by
        rw [List.countP_eq_length_filter]
    _ = ((f.filter fun r => split_by bc r == k).map rnk).countP p :=
        (List.countP_map p rnk (f.filter fun r => split_by bc r == k)).symm
    _ = (List.range' 1 (f.filter (fun r => split_by bc r == k)).length).countP p :=
        hg.countP_eq p

/-- bround never rounds a nonnegative rational below zero. -/
lemma bround_nonneg (q : Rat) (h : 0 ≤ q) : 0 ≤ bround q := by
  have hf : 0 ≤ Int.floor q := Int.floor_nonneg.mpr h
  unfold bround
  split_ifs <;> omega

/-- When the integer comparison of the bround branches says the
fractional part is at least one half, it really is. -/
lemma half_le_of_den_le (q : Rat)
    (h : (q.den : Int) ≤ 2 * (q.num - Int.floor q * (q.den : Int))) :
    (1 : Rat) / 2 ≤ q - (Int.floor q : Rat) := by
  have hden : (0 : Rat) < (q.den : Rat) := by exact_mod_cast q.pos
  have hcast : ((q.den : Int) : Rat) ≤
      ((2 * (q.num - Int.floor q * (q.den : Int)) : Int) : Rat) := Int.cast_le.mpr h
  push_cast at hcast
  have hnum : (q.num : Rat) = q * (q.den : Rat) :=
    (div_eq_iff (ne_of_gt hden)).mp (Rat.num_div_den q)
  rw [hnum] at hcast
  by_contra hcon
  push_neg at hcon
  have h2 : (q - (Int.floor q : Rat)) * (q.den : Rat) < (1 / 2) * (q.den : Rat) :=
    mul_lt_mul_of_pos_right hcon hden
  nlinarith

/-- bround of a rational at most n stays at most n. -/
lemma bround_le_nat (q : Rat) (n : Nat) (h : q ≤ (n : Rat)) : bround q ≤ (n : Int) := by
  have hfl : Int.floor q ≤ (n : Int) := by
    have h2 := Int.floor_le_floor h
    rwa [Int.floor_natCast] at h2
  have hkey : (q.den : Int) ≤ 2 * (q.num - Int.floor q * (q.den : Int)) →
      Int.floor q < (n : Int) := by
    intro hd
    have hhalf := half_le_of_den_le q hd
    by_contra hcon
    push_neg at hcon
    have hc2 : (n : Rat) ≤ (Int.floor q : Rat) := by exact_mod_cast hcon
    have hfq : q ≤ (n : Rat) := h
    linarith
  unfold bround
  split_ifs with h1 h2 h3
  · exact hfl
  · have := hkey (by omega)
    omega
  · exact hfl
  · have := hkey (by omega)
    omega

/-- bround_mul really is the rounding of the product count * ratio. -/
lemma bround_mul_eq (n : Nat) (frac : Rat) :
    bround_mul n frac = bround ((n : Rat) * frac) := by
  unfold bround_mul
  congr 1
  rw [Rat.mkRat_eq_divInt, Rat.divInt_eq_div]
  push_cast
  rw [mul_div_assoc, Rat.num_div_den]

/-- With a nonnegative ratio the split point is nonnegative. -/
lemma bround_mul_nonneg (n : Nat) (frac : Rat) (h : 0 ≤ frac) : 0 ≤ bround_mul n frac := by
  rw [bround_mul_eq]
  exact bround_nonneg _ (mul_nonneg (by positivity) h)

/-- With a ratio at most one the split point is at most the group size. -/
lemma bround_mul_le (n : Nat) (frac : Rat) (h0 : 0 ≤ frac) (h1 : frac ≤ 1) :
    bround_mul n frac ≤ (n : Int) := by
  rw [bround_mul_eq]
  apply bround_le_nat
  calc (n : Rat) * frac ≤ (n : Rat) * 1 := mul_le_mul_of_nonneg_left h1 (by positivity)
    _ = (n : Rat) := mul_one _

/-- Every key present in the filtered list heads a group of size at least
the threshold. -/
lemma group_ge (l : List Rating) (m : Nat) (bc : Bool) (k : Nat)
    (hk : k ∈ (min_rating_filter l m bc).map (split_by bc)) :
    m ≤ groupCount (min_rating_filter l m bc) bc k := by
  obtain ⟨r, hr, rfl⟩ := List.mem_map.mp hk
  have h1 := (List.mem_filter.mp hr).2
  have h2 : m ≤ groupCount l bc (split_by bc r) := by simpa using h1
  rw [groupCount_min_rating_filter l m bc _ h2]
  exact h2

/-- In fixed-count mode the test side of a group with at least sample
records holds exactly sample records. -/
lemma test_count_fixed (f : List Rating) (bc : Bool) (rnk : Rating → Nat)
    (sample k : Nat)
    (hg : ((f.filter (fun r => split_by bc r == k)).map rnk).Perm
          (List.range' 1 (f.filter (fun r => split_by bc r == k)).length))
    (hn : sample ≤ groupCount f bc k) :
    ((f.filter (fun r => decide (rnk r ≤ sample))).filter
        (fun r => split_by bc r == k)).length = sample := by
  rw [count_filter_rank f bc rnk k _ (fun x => decide (x ≤ sample)) hg
    (fun r _ _ => rfl)]
  rw [countP_range'_le]
  rw [groupCount_def] at hn
  rw [Nat.min_def]
  split_ifs <;> omega

/-- In fixed-count mode the train side of a group holds the remaining
groupSize - sample records. -/
lemma train_count_fixed (f : List Rating) (bc : Bool) (rnk : Rating → Nat)
    (sample k : Nat)
    (hg : ((f.filter (fun r => split_by bc r == k)).map rnk).Perm
          (List.range' 1 (f.filter (fun r => split_by bc r == k)).length))
    (hn : sample ≤ groupCount f bc k) :
    ((f.filter (fun r => decide (sample < rnk r))).filter
        (fun r => split_by bc r == k)).length = groupCount f bc k - sample := by
  rw [count_filter_rank f bc rnk k _ (fun x => decide (sample < x)) hg
    (fun r _ _ => rfl)]
  rw [countP_range'_gt]
  rw [groupCount_def] at hn ⊢
  rw [Nat.min_def]
  split_ifs <;> omega

/-- In ratio mode the test side of a group holds exactly
round(groupSize * ratio) records. -/
lemma test_count_ratio (f : List Rating) (bc : Bool) (rnk : Rating → Nat)
    (frac : Rat) (k : Nat)
    (hg : ((f.filter (fun r => split_by bc r == k)).map rnk).Perm
          (List.range' 1 (f.filter (fun r => split_by bc r == k)).length))
    (h0 : 0 ≤ frac) (h1 : frac ≤ 1) :
    ((f.filter (fun r => decide ((rnk r : Int) ≤
          bround_mul (groupCount f bc (split_by bc r)) frac))).filter
        (fun r => split_by bc r == k)).length =
      (bround_mul (groupCount f bc k) frac).toNat := by
  rw [count_filter_rank f bc rnk k _
    (fun x : Nat => decide ((x : Int) ≤ bround_mul (groupCount f bc k) frac)) hg
    (fun r hr hkey => by rw [hkey])]
  rw [countP_range'_le_int _ _ (bround_mul_nonneg _ _ h0)]
  have h2 : (bround_mul (groupCount f bc k) frac).toNat ≤
      (f.filter (fun r => split_by bc r == k)).length := by
    have h3 := bround_mul_le (groupCount f bc k) frac h0 h1
    rw [groupCount_def] at h3
    exact Int.toNat_le.mpr h3
  rw [Nat.min_def]
  split_ifs <;> omega

/-- C5: under the fixed-count precondition sample < minCount (and a valid
per-group ranking), every retained group contributes exactly sample
records to test and groupSize - sample to train for both Stratified and
Chronological; in ratio mode (ratio in [0,1]) every retained group
contributes exactly bround(groupSize * ratio) records to test. -/
theorem claim5_per_group_counts (l : List Rating) (m : Nat) (bc : Bool) (frac : Rat)
    (sample : Nat) (rnk : Rating → Nat)
    (hv : ValidRank (min_rating_filter l m bc) bc rnk)
    (hs : sample < m) (h0 : 0 ≤ frac) (h1 : frac ≤ 1) :
    (∀ tr te, stratified_split l m bc frac true sample rnk = some (tr, te) →
      ∀ k ∈ (min_rating_filter l m bc).map (split_by bc),
        (te.filter (fun r => split_by bc r == k)).length = sample ∧
        (tr.filter (fun r => split_by bc r == k)).length =
          groupCount (min_rating_filter l m bc) bc k - sample) ∧
    (∀ tr te, stratified_split l m bc frac false sample rnk = some (tr, te) →
      ∀ k ∈ (min_rating_filter l m bc).map (split_by bc),
        (te.filter (fun r => split_by bc r == k)).length =
          (bround_mul (groupCount (min_rating_filter l m bc) bc k) frac).toNat) ∧
    (∀ tr te, chronological_split l m bc frac true sample rnk = some (tr, te) →
      ∀ k ∈ (min_rating_filter l m bc).map (split_by bc),
        (te.filter (fun x => x.byID == k)).length = sample ∧
        (tr.filter (fun x => x.byID == k)).length =
          groupCount (min_rating_filter l m bc) bc k - sample) ∧
    (∀ tr te, chronological_split l m bc frac false sample rnk = some (tr, te) →
      ∀ k ∈ (min_rating_filter l m bc).map (split_by bc),
        (te.filter (fun x => x.byID == k)).length =
          (bround_mul (groupCount (min_rating_filter l m bc) bc k) frac).toNat) := by
  have hcomp : ∀ k : Nat, ((fun x : RatingKT => x.byID == k) ∘ projKT bc) =
      (fun r : Rating => split_by bc r == k) := fun k => rfl
  refine ⟨?_, ?_, ?_, ?_⟩
  · intro tr te h k hk
    rw [stratified_split_fixed_eq l m bc frac sample rnk (by omega)] at h
    rw [Option.some.injEq, Prod.mk.injEq] at h
    obtain ⟨h1', h2'⟩ := h
    subst h1'
    subst h2'
    have hn : sample ≤ groupCount (min_rating_filter l m bc) bc k :=
      le_of_lt (lt_of_lt_of_le hs (group_ge l m bc k hk))
    exact ⟨test_count_fixed _ bc rnk sample k (hv k hk) hn,
      train_count_fixed _ bc rnk sample k (hv k hk) hn⟩
  · intro tr te h k hk
    rw [stratified_split_ratio_eq l m bc frac sample rnk] at h
    rw [Option.some.injEq, Prod.mk.injEq] at h
    obtain ⟨h1', h2'⟩ := h
    subst h1'
    subst h2'
    exact test_count_ratio _ bc rnk frac k (hv k hk) h0 h1
  · intro tr te h k hk
    rw [chronological_split_fixed_eq l m bc frac sample rnk (by omega)] at h
    rw [Option.some.injEq, Prod.mk.injEq] at h
    obtain ⟨h1', h2'⟩ := h
    subst h1'
    subst h2'
    have hn : sample ≤ groupCount (min_rating_filter l m bc) bc k :=
      le_of_lt (lt_of_lt_of_le hs (group_ge l m bc k hk))
    constructor
    · rw [List.filter_map, List.length_map, hcomp k]
      exact test_count_fixed _ bc rnk sample k (hv k hk) hn
    · rw [List.filter_map, List.length_map, hcomp k]
      exact train_count_fixed _ bc rnk sample k (hv k hk) hn
  · intro tr te h k hk
    rw [chronological_split_ratio_eq l m bc frac sample rnk] at h
    rw [Option.some.injEq, Prod.mk.injEq] at h
    obtain ⟨h1', h2'⟩ := h
    subst h1'
    subst h2'
    rw [List.filter_map, List.length_map, hcomp k]
    exact test_count_ratio _ bc rnk frac k (hv k hk) h0 h1

/-- Witness for C5: one customer, two items, minCount 2, sample 1,
ratio one half; the customer's group puts exactly one record in test and
one in train in fixed-count mode, and round(2 * 0.5) = 1 record in test
in ratio mode. -/
theorem claim5_per_group_counts_witness :
    ValidRank (min_rating_filter c3l 2 true) true c3rnk ∧
    (1 : Nat) < 2 ∧ (0 : Rat) ≤ mkRat 1 2 ∧ (mkRat 1 2 : Rat) ≤ 1 ∧
    stratified_split c3l 2 true (mkRat 1 2) true 1 c3rnk =
      some ([⟨1, 2, 1, 0⟩], [⟨1, 1, 2, 0⟩]) ∧
    (([⟨1, 1, 2, 0⟩] : List Rating).filter (fun r => split_by true r == 1)).length = 1 ∧
    (([⟨1, 2, 1, 0⟩] : List Rating).filter (fun r => split_by true r == 1)).length =
      groupCount (min_rating_filter c3l 2 true) true 1 - 1 ∧
    stratified_split c3l 2 true (mkRat 1 2) false 1 c3rnk =
      some ([⟨1, 2, 1, 0⟩], [⟨1, 1, 2, 0⟩]) ∧
    (([⟨1, 1, 2, 0⟩] : List Rating).filter (fun r => split_by true r == 1)).length =
      (bround_mul (groupCount (min_rating_filter c3l 2 true) true 1) (mkRat 1 2)).toNat := by
  refine ⟨by decide, by decide, by decide, by decide, by decide, ?_, ?_, by decide, ?_⟩
  · exact ((claim5_per_group_counts c3l 2 true (mkRat 1 2) 1 c3rnk (by decide) (by decide)
      (by decide) (by decide)).1 [⟨1, 2, 1, 0⟩] [⟨1, 1, 2, 0⟩] (by decide) 1 (by decide)).1
  · exact ((claim5_per_group_counts c3l 2 true (mkRat 1 2) 1 c3rnk (by decide) (by decide)
      (by decide) (by decide)).1 [⟨1, 2, 1, 0⟩] [⟨1, 1, 2, 0⟩] (by decide) 1 (by decide)).2
  · exact (claim5_per_group_counts c3l 2 true (mkRat 1 2) 1 c3rnk (by decide) (by decide)
      (by decide) (by decide)).2.1 [⟨1, 2, 1, 0⟩] [⟨1, 1, 2, 0⟩] (by decide) 1 (by decide)

/-- C6: with the window ranking consistent with descending timestamps
(rank 1 = most recent), chronological_split puts exactly the most recent
sample records (fixed-count mode) or bround(groupSize * ratio) records
(ratio mode) of each retained group into test, and every train record of
a group is no newer than every test record of that group. -/
theorem claim6_chronological_recency (l : List Rating) (m : Nat) (bc : Bool)
    (frac : Rat) (sample : Nat) (rnk : Rating → Nat)
    (hv : ValidRank (min_rating_filter l m bc) bc rnk)
    (ht : TimeRanked (min_rating_filter l m bc) bc rnk)
    (hs : sample < m) (h0 : 0 ≤ frac) (h1 : frac ≤ 1) :
    (∀ tr te, chronological_split l m bc frac true sample rnk = some (tr, te) →
      (∀ a ∈ te, ∀ b ∈ tr, a.byID = b.byID → b.timeStamp ≤ a.timeStamp) ∧
      ∀ k ∈ (min_rating_filter l m bc).map (split_by bc),
        (te.filter (fun x => x.byID == k)).length = sample) ∧
    (∀ tr te, chronological_split l m bc frac false sample rnk = some (tr, te) →
      (∀ a ∈ te, ∀ b ∈ tr, a.byID = b.byID → b.timeStamp ≤ a.timeStamp) ∧
      ∀ k ∈ (min_rating_filter l m bc).map (split_by bc),
        (te.filter (fun x => x.byID == k)).length =
          (bround_mul (groupCount (min_rating_filter l m bc) bc k) frac).toNat) := by
  have hcomp : ∀ k : Nat, ((fun x : RatingKT => x.byID == k) ∘ projKT bc) =
      (fun r : Rating => split_by bc r == k) := fun k => rfl
  constructor
  · intro tr te h
    rw [chronological_split_fixed_eq l m bc frac sample rnk (by omega)] at h
    rw [Option.some.injEq, Prod.mk.injEq] at h
    obtain ⟨h1', h2'⟩ := h
    subst h1'
    subst h2'
    constructor
    · intro a ha b hb hab
      obtain ⟨a', ha', rfl⟩ := List.mem_map.mp ha
      obtain ⟨b', hb', rfl⟩ := List.mem_map.mp hb
      have ha2 := List.mem_filter.mp ha'
      have hb2 := List.mem_filter.mp hb'
      have hra : rnk a' ≤ sample := of_decide_eq_true ha2.2
      have hrb : sample < rnk b' := of_decide_eq_true hb2.2
      have hkeys : split_by bc a' = split_by bc b' := hab
      exact ht a' ha2.1 b' hb2.1 hkeys (by omega)
    · intro k hk
      have hn : sample ≤ groupCount (min_rating_filter l m bc) bc k :=
        le_of_lt (lt_of_lt_of_le hs (group_ge l m bc k hk))
      rw [List.filter_map, List.length_map, hcomp k]
      exact test_count_fixed _ bc rnk sample k (hv k hk) hn
  · intro tr te h
    rw [chronological_split_ratio_eq l m bc frac sample rnk] at h
    rw [Option.some.injEq, Prod.mk.injEq] at h
    obtain ⟨h1', h2'⟩ := h
    subst h1'
    subst h2'
    constructor
    · intro a ha b hb hab
      obtain ⟨a', ha', rfl⟩ := List.mem_map.mp ha
      obtain ⟨b', hb', rfl⟩ := List.mem_map.mp hb
      have ha2 := List.mem_filter.mp ha'
      have hb2 := List.mem_filter.mp hb'
      have hra := of_decide_eq_true ha2.2
      have hrb := of_decide_eq_true hb2.2
      have hkeys : split_by bc a' = split_by bc b' := hab
      rw [hkeys] at hra
      have hlt : rnk a' < rnk b' := by exact_mod_cast lt_of_le_of_lt hra hrb
      exact ht a' ha2.1 b' hb2.1 hkeys hlt
    · intro k hk
      rw [List.filter_map, List.length_map, hcomp k]
      exact test_count_ratio _ bc rnk frac k (hv k hk) h0 h1

/-- Witness for C6 at the two-record example: rank by item id is a valid
descending-timestamp ranking, the most recent record forms the test side,
and the (strictly older) train record is not newer than it. -/
theorem claim6_chronological_recency_witness :
    ValidRank (min_rating_filter c3l 2 true) true c3rnk ∧
    TimeRanked (min_rating_filter c3l 2 true) true c3rnk ∧
    chronological_split c3l 2 true (mkRat 1 2) true 1 c3rnk =
      some ([⟨1, 2, 1⟩], [⟨1, 1, 2⟩]) ∧
    ((⟨1, 2, 1⟩ : RatingKT).timeStamp ≤ (⟨1, 1, 2⟩ : RatingKT).timeStamp) ∧
    (([⟨1, 1, 2⟩] : List RatingKT).filter (fun x => x.byID == 1)).length = 1 := by
  refine ⟨by decide, by decide, by decide, ?_, ?_⟩
  · exact ((claim6_chronological_recency c3l 2 true (mkRat 1 2) 1 c3rnk (by decide)
        (by decide) (by decide) (by decide) (by decide)).1 [⟨1, 2, 1⟩] [⟨1, 1, 2⟩]
        (by decide)).1 ⟨1, 1, 2⟩ (by decide) ⟨1, 2, 1⟩ (by decide) rfl
  · exact ((claim6_chronological_recency c3l 2 true (mkRat 1 2) 1 c3rnk (by decide)
        (by decide) (by decide) (by decide) (by decide)).1 [⟨1, 2, 1⟩] [⟨1, 1, 2⟩]
        (by decide)).2 1 (by decide)

/-- An in-bounds getD is a member of the list. -/
lemma getD_mem_of_lt (xs : List Rat) (s : Nat) (h : s < xs.length) : xs.getD s 0 ∈ xs := by
  simp only [List.getD_eq_getElem?_getD, List.getElem?_eq_getElem h, Option.getD_some]
  exact List.getElem_mem h

/-- Invariant of the argmax scan: it either keeps the carried best index
(when nothing in the tail beats the carried value) or returns the offset
of the first strict improvement that is maximal in the tail. -/
lemma argmaxAux_spec (xs : List Rat) : ∀ (b i : Nat) (v : Rat),
    (argmaxAux (b, v) i xs = b ∧ ∀ x ∈ xs, x ≤ v) ∨
    (∃ j, j < xs.length ∧ argmaxAux (b, v) i xs = i + j ∧ v < xs.getD j 0 ∧
      (∀ s, s < xs.length → xs.getD s 0 ≤ xs.getD j 0) ∧
      ∀ s, s < j → xs.getD s 0 < xs.getD j 0) := by
  induction xs with
  | nil =>
    intro b i v
    left
    exact ⟨rfl, by simp⟩
  | cons x xs ih =>
    intro b i v
    by_cases hvx : v < x
    · have heq : argmaxAux (b, v) i (x :: xs) = argmaxAux (i, x) (i + 1) xs := by
        simp [argmaxAux, hvx]
      rcases ih i (i + 1) x with ⟨h1, h2⟩ | ⟨j, hj, h1, h2, h3, h4⟩
      · right
        refine ⟨0, by simp, by rw [heq, h1]; omega, by simpa using hvx, ?_, ?_⟩
        · intro s hs
          simp only [List.length_cons] at hs
          cases s with
          | zero => exact le_refl _
          | succ s =>
            rw [List.getD_cons_succ, List.getD_cons_zero]
            exact h2 _ (getD_mem_of_lt xs s (by omega))
        · intro s hs
          exact absurd hs (Nat.not_lt_zero s)
      · right
        refine ⟨j + 1, by simp only [List.length_cons]; omega, ?_, ?_, ?_, ?_⟩
        · rw [heq, h1]; omega
        · rw [List.getD_cons_succ]; exact lt_trans hvx h2
        · intro s hs
          simp only [List.length_cons] at hs
          cases s with
          | zero =>
            rw [List.getD_cons_zero, List.getD_cons_succ]
            exact le_of_lt h2
          | succ s =>
            rw [List.getD_cons_succ, List.getD_cons_succ]
            exact h3 s (by omega)
        · intro s hs
          cases s with
          | zero =>
            rw [List.getD_cons_zero, List.getD_cons_succ]
            exact h2
          | succ s =>
            rw [List.getD_cons_succ, List.getD_cons_succ]
            exact h4 s (by omega)
    · have heq : argmaxAux (b, v) i (x :: xs) = argmaxAux (b, v) (i + 1) xs := by
        simp [argmaxAux, hvx]
      rcases ih b (i + 1) v with ⟨h1, h2⟩ | ⟨j, hj, h1, h2, h3, h4⟩
      · left
        refine ⟨by rw [heq, h1], ?_⟩
        intro y hy
        rcases List.mem_cons.mp hy with rfl | hy2
        · exact le_of_not_lt hvx
        · exact h2 y hy2
      · right
        refine ⟨j + 1, by simp only [List.length_cons]; omega, by rw [heq, h1]; omega,
          ?_, ?_, ?_⟩
        · rw [List.getD_cons_succ]; exact h2
        · intro s hs
          simp only [List.length_cons] at hs
          cases s with
          | zero =>
            rw [List.getD_cons_zero, List.getD_cons_succ]
            exact le_trans (le_of_not_lt hvx) (le_of_lt h2)
          | succ s =>
            rw [List.getD_cons_succ, List.getD_cons_succ]
            exact h3 s (by omega)
        · intro s hs
          cases s with
          | zero =>
            rw [List.getD_cons_zero, List.getD_cons_succ]
            exact lt_of_le_of_lt (le_of_not_lt hvx) h2
          | succ s =>
            rw [List.getD_cons_succ, List.getD_cons_succ]
            exact h4 s (by omega)

/-- np.argmax semantics: on a nonempty list the scan returns the first
occurrence of the maximum. -/
lemma np_argmax_isFirstMax (l : List Rat) (h : l ≠ []) : IsFirstMax l (np_argmax l) := by
  cases l with
  | nil => exact absurd rfl h
  | cons x xs =>
    rw [show np_argmax (x :: xs) = argmaxAux (0, x) 1 xs from rfl]
    rcases argmaxAux_spec xs 0 1 x with ⟨h1, h2⟩ | ⟨j, hj, h1, h2, h3, h4⟩
    · rw [h1]
      refine ⟨by simp, ?_, ?_⟩
      · intro s hs
        simp only [List.length_cons] at hs
        cases s with
        | zero => exact le_refl _
        | succ s =>
          rw [List.getD_cons_succ, List.getD_cons_zero]
          exact h2 _ (getD_mem_of_lt xs s (by omega))
      · intro s hs
        exact absurd hs (Nat.not_lt_zero s)
    · rw [h1]
      have hgoal : (x :: xs).getD (1 + j) 0 = xs.getD j 0 := by
        rw [show 1 + j = j + 1 by omega, List.getD_cons_succ]
      refine ⟨by simp only [List.length_cons]; omega, ?_, ?_⟩
      · intro s hs
        simp only [List.length_cons] at hs
        rw [hgoal]
        cases s with
        | zero =>
          rw [List.getD_cons_zero]
          exact le_of_lt h2
        | succ s =>
          rw [List.getD_cons_succ]
          exact h3 s (by omega)
      · intro s hs
        rw [hgoal]
        cases s with
        | zero =>
          rw [List.getD_cons_zero]
          exact h2
        | succ s =>
          rw [List.getD_cons_succ]
          exact h4 s (by omega)

/-- Invariant of the argmin scan, mirror image of `argmaxAux_spec`. -/
lemma argminAux_spec (xs : List Rat) : ∀ (b i : Nat) (v : Rat),
    (argminAux (b, v) i xs = b ∧ ∀ x ∈ xs, v ≤ x) ∨
    (∃ j, j < xs.length ∧ argminAux (b, v) i xs = i + j ∧ xs.getD j 0 < v ∧
      (∀ s, s < xs.length → xs.getD j 0 ≤ xs.getD s 0) ∧
      ∀ s, s < j → xs.getD j 0 < xs.getD s 0) := by
  induction xs with
  | nil =>
    intro b i v
    left
    exact ⟨rfl, by simp⟩
  | cons x xs ih =>
    intro b i v
    by_cases hvx : x < v
    · have heq : argminAux (b, v) i (x :: xs) = argminAux (i, x) (i + 1) xs := by
        simp [argminAux, hvx]
      rcases ih i (i + 1) x with ⟨h1, h2⟩ | ⟨j, hj, h1, h2, h3, h4⟩
      · right
        refine ⟨0, by simp, by rw [heq, h1]; omega, by simpa using hvx, ?_, ?_⟩
        · intro s hs
          simp only [List.length_cons] at hs
          cases s with
          | zero => exact le_refl _
          | succ s =>
            rw [List.getD_cons_succ, List.getD_cons_zero]
            exact h2 _ (getD_mem_of_lt xs s (by omega))
        · intro s hs
          exact absurd hs (Nat.not_lt_zero s)
      · right
        refine ⟨j + 1, by simp only [List.length_cons]; omega, ?_, ?_, ?_, ?_⟩
        · rw [heq, h1]; omega
        · rw [List.getD_cons_succ]; exact lt_trans h2 hvx
        · intro s hs
          simp only [List.length_cons] at hs
          cases s with
          | zero =>
            rw [List.getD_cons_zero, List.getD_cons_succ]
            exact le_of_lt h2
          | succ s =>
            rw [List.getD_cons_succ, List.getD_cons_succ]
            exact h3 s (by omega)
        · intro s hs
          cases s with
          | zero =>
            rw [List.getD_cons_zero, List.getD_cons_succ]
            exact h2
          | succ s =>
            rw [List.getD_cons_succ, List.getD_cons_succ]
            exact h4 s (by omega)
    · have heq : argminAux (b, v) i (x :: xs) = argminAux (b, v) (i + 1) xs := by
        simp [argminAux, hvx]
      rcases ih b (i + 1) v with ⟨h1, h2⟩ | ⟨j, hj, h1, h2, h3, h4⟩
      · left
        refine ⟨by rw [heq, h1], ?_⟩
        intro y hy
        rcases List.mem_cons.mp hy with rfl | hy2
        · exact le_of_not_lt hvx
        · exact h2 y hy2
      · right
        refine ⟨j + 1, by simp only [List.length_cons]; omega, by rw [heq, h1]; omega,
          ?_, ?_, ?_⟩
        · rw [List.getD_cons_succ]; exact h2
        · intro s hs
          simp only [List.length_cons] at hs
          cases s with
          | zero =>
            rw [List.getD_cons_zero, List.getD_cons_succ]
            exact le_trans (le_of_lt h2) (le_of_not_lt hvx)
          | succ s =>
            rw [List.getD_cons_succ, List.getD_cons_succ]
            exact h3 s (by omega)
        · intro s hs
          cases s with
          | zero =>
            rw [List.getD_cons_zero, List.getD_cons_succ]
            exact lt_of_lt_of_le h2 (le_of_not_lt hvx)
          | succ s =>
            rw [List.getD_cons_succ, List.getD_cons_succ]
            exact h4 s (by omega)

/-- np.argmin semantics: on a nonempty list the scan returns the first
occurrence of the minimum. -/
lemma np_argmin_isFirstMin (l : List Rat) (h : l ≠ []) : IsFirstMin l (np_argmin l) := by
  cases l with
  | nil => exact absurd rfl h
  | cons x xs =>
    rw [show np_argmin (x :: xs) = argminAux (0, x) 1 xs from rfl]
    rcases argminAux_spec xs 0 1 x with ⟨h1, h2⟩ | ⟨j, hj, h1, h2, h3, h4⟩
    · rw [h1]
      refine ⟨by simp, ?_, ?_⟩
      · intro s hs
        simp only [List.length_cons] at hs
        cases s with
        | zero => exact le_refl _
        | succ s =>
          rw [List.getD_cons_succ, List.getD_cons_zero]
          exact h2 _ (getD_mem_of_lt xs s (by omega))
      · intro s hs
        exact absurd hs (Nat.not_lt_zero s)
    · rw [h1]
      have hgoal : (x :: xs).getD (1 + j) 0 = xs.getD j 0 := by
        rw [show 1 + j = j + 1 by omega, List.getD_cons_succ]
      refine ⟨by simp only [List.length_cons]; omega, ?_, ?_⟩
      · intro s hs
        simp only [List.length_cons] at hs
        rw [hgoal]
        cases s with
        | zero =>
          rw [List.getD_cons_zero]
          exact le_of_lt h2
        | succ s =>
          rw [List.getD_cons_succ]
          exact h3 s (by omega)
      · intro s hs
        rw [hgoal]
        cases s with
        | zero =>
          rw [List.getD_cons_zero]
          exact h2
        | succ s =>
          rw [List.getD_cons_succ]
          exact h4 s (by omega)

/-- C7: the model selector's chosen index is the first-occurrence argmax
of the metric list when the evaluator says larger is better, the
first-occurrence argmin otherwise, it is always in range, and the final
refit configuration is the parameter map stored at that index. -/
theorem claim7_best_index_selection (lb : Bool) (ms : List Rat) {α : Type}
    (epm : List α) (hne : ms ≠ []) :
    (lb = true → IsFirstMax ms (selectBestIndex lb ms)) ∧
    (lb = false → IsFirstMin ms (selectBestIndex lb ms)) ∧
    selectBestIndex lb ms < ms.length ∧
    (epm.length = ms.length → ∃ c, bestConfig lb ms epm = some c) := by
  cases lb with
  | true =>
    have hmax := np_argmax_isFirstMax ms hne
    have hsel : selectBestIndex true ms = np_argmax ms := rfl
    refine ⟨?_, ?_, ?_, ?_⟩
    · intro _
      rw [hsel]
      exact hmax
    · intro hcon
      exact Bool.noConfusion hcon
    · rw [hsel]
      exact hmax.1
    · intro hlen
      have hidx : selectBestIndex true ms < epm.length := by
        rw [hlen, hsel]
        exact hmax.1
      exact ⟨epm.get ⟨selectBestIndex true ms, hidx⟩, List.get?_eq_get hidx⟩
  | false =>
    have hmin := np_argmin_isFirstMin ms hne
    have hsel : selectBestIndex false ms = np_argmin ms := rfl
    refine ⟨?_, ?_, ?_, ?_⟩
    · intro hcon
      exact Bool.noConfusion hcon
    · intro _
      rw [hsel]
      exact hmin
    · rw [hsel]
      exact hmin.1
    · intro hlen
      have hidx : selectBestIndex false ms < epm.length := by
        rw [hlen, hsel]
        exact hmin.1
      exact ⟨epm.get ⟨selectBestIndex false ms, hidx⟩, List.get?_eq_get hidx⟩

/-- Witness for C7 at the spec's example: metrics [0.5, 0.9, 0.9] with
larger-is-better select index 1 (the first maximum), and the refit
configuration is the second parameter map. -/
theorem claim7_best_index_selection_witness :
    (([mkRat 1 2, mkRat 9 10, mkRat 9 10] : List Rat) ≠ []) ∧
    selectBestIndex true [mkRat 1 2, mkRat 9 10, mkRat 9 10] = 1 ∧
    IsFirstMax [mkRat 1 2, mkRat 9 10, mkRat 9 10] 1 ∧
    bestConfig true [mkRat 1 2, mkRat 9 10, mkRat 9 10] [(10 : Nat), 20, 30] = some 20 := by
  refine ⟨by decide, by decide, ?_, by decide⟩
  have h := (claim7_best_index_selection true [mkRat 1 2, mkRat 9 10, mkRat 9 10]
    [(10 : Nat), 20, 30] (by decide)).1 rfl
  rwa [show selectBestIndex true [mkRat 1 2, mkRat 9 10, mkRat 9 10] = 1 by decide] at h

/-- The gather fold preserves the length of the slots list. -/
lemma foldl_set_length {α : Type} (rs : List (Nat × α)) (acc : List (Option α)) :
    (rs.foldl (fun a p => a.set p.1 (some p.2)) acc).length = acc.length := by
  induction rs generalizing acc with
  | nil => rfl
  | cons p rs ih =>
    rw [List.foldl_cons, ih, List.length_set]

/-- A slot whose index never arrives is untouched by the gather fold. -/
lemma foldl_set_not_mem {α : Type} (rs : List (Nat × α)) (acc : List (Option α)) (i : Nat)
    (h : i ∉ rs.map Prod.fst) :
    (rs.foldl (fun a p => a.set p.1 (some p.2)) acc)[i]? = acc[i]? := by
  induction rs generalizing acc with
  | nil => rfl
  | cons p rs ih =>
    rw [List.map_cons, List.mem_cons] at h
    push_neg at h
    rw [List.foldl_cons, ih _ h.2]
    exact List.getElem?_set_ne (fun hc => h.1 hc.symm)

/-- With index-nodup results, the slot of an arriving index holds exactly
that trial's value after the gather fold, however the arrivals are
ordered. -/
lemma foldl_set_mem {α : Type} (rs : List (Nat × α)) (acc : List (Option α)) (i : Nat)
    (v : α) (hmem : (i, v) ∈ rs) (hnd : (rs.map Prod.fst).Nodup) (hi : i < acc.length) :
    (rs.foldl (fun a p => a.set p.1 (some p.2)) acc)[i]? = some (some v) := by
  induction rs generalizing acc with
  | nil => cases hmem
  | cons p rs ih =>
    rw [List.map_cons] at hnd
    have hnd2 := List.nodup_cons.mp hnd
    rw [List.foldl_cons]
    rcases List.mem_cons.mp hmem with rfl | hmem2
    · rw [foldl_set_not_mem rs _ i hnd2.1]
      exact List.getElem?_set_self hi
    · exact ih (acc.set p.1 (some p.2)) hmem2 hnd2.2 (by rwa [List.length_set])

/-- C8: when the trial results carry the indices 0..N-1 exactly once (the
fitMultiple contract), the gather loop fills every slot exactly once with
the metric of the configuration at that index, and the final array is the
same for every arrival order — concurrent completion in any order equals
sequential execution. -/
theorem claim8_order_invariant {α : Type} (n : Nat) (rs rsExec : List (Nat × α))
    (hperm : rsExec.Perm rs) (hidx : (rs.map Prod.fst).Perm (List.range n)) :
    scatterResults n rsExec = scatterResults n rs ∧
    ∀ i, i < n → ∃ v, (scatterResults n rs)[i]? = some (some v) ∧ (i, v) ∈ rs := by
  have hnd : (rs.map Prod.fst).Nodup := hidx.nodup_iff.mpr (List.nodup_range n)
  have hndE : (rsExec.map Prod.fst).Nodup := (hperm.map Prod.fst).nodup_iff.mpr hnd
  have hmem : ∀ i, i < n → ∃ v, (i, v) ∈ rs := by
    intro i hi
    have h1 : i ∈ rs.map Prod.fst := hidx.mem_iff.mpr (List.mem_range.mpr hi)
    obtain ⟨p, hp, hpe⟩ := List.mem_map.mp h1
    refine ⟨p.2, ?_⟩
    have h2 : (i, p.2) = p := Prod.ext hpe.symm rfl
    rw [h2]
    exact hp
  simp only [scatterResults]
  constructor
  · apply List.ext_getElem?
    intro j
    by_cases hj : j < n
    · obtain ⟨v, hv⟩ := hmem j hj
      have h1 : (rs.foldl (fun a p => a.set p.1 (some p.2))
          (List.replicate n none))[j]? = some (some v) :=
        foldl_set_mem rs _ j v hv hnd (by rw [List.length_replicate]; exact hj)
      have h2 : (rsExec.foldl (fun a p => a.set p.1 (some p.2))
          (List.replicate n none))[j]? = some (some v) :=
        foldl_set_mem rsExec _ j v (hperm.mem_iff.mpr hv) hndE
          (by rw [List.length_replicate]; exact hj)
      rw [h1, h2]
    · have hlen1 : (rsExec.foldl (fun a p => a.set p.1 (some p.2))
          (List.replicate n none)).length = n := by
        rw [foldl_set_length, List.length_replicate]
      have hlen2 : (rs.foldl (fun a p => a.set p.1 (some p.2))
          (List.replicate n none)).length = n := by
        rw [foldl_set_length, List.length_replicate]
      rw [List.getElem?_eq_none (by omega), List.getElem?_eq_none (by omega)]
  · intro i hi
    obtain ⟨v, hv⟩ := hmem i hi
    exact ⟨v, foldl_set_mem rs _ i v hv hnd (by rw [List.length_replicate]; exact hi), hv⟩

/-- Witness for C8: three trials finishing in the order 2, 0, 1 produce
the same metric array as the sequential order 0, 1, 2. -/
theorem claim8_order_invariant_witness :
    (([(2, 30), (0, 10), (1, 20)] : List (Nat × Nat)).Perm [(0, 10), (1, 20), (2, 30)]) ∧
    ((([(0, 10), (1, 20), (2, 30)] : List (Nat × Nat)).map Prod.fst).Perm (List.range 3)) ∧
    scatterResults 3 ([(2, 30), (0, 10), (1, 20)] : List (Nat × Nat)) =
      scatterResults 3 ([(0, 10), (1, 20), (2, 30)] : List (Nat × Nat)) := by
  refine ⟨by decide, by decide, ?_⟩
  exact (claim8_order_invariant 3 [(0, 10), (1, 20), (2, 30)] [(2, 30), (0, 10), (1, 20)]
    (by decide) (by decide)).1
